import Mathlib

/-!
Verification development for the MarkdownEditor CoreEditor decoration engine.

The TypeScript sources under `CoreEditor/src` are shallowly embedded here:

* JavaScript strings are modeled as `List Char`; string offsets are `Nat`
  indices into that list (the sources only ever handle ASCII markers, where
  UTF-16 code-unit offsets and codepoint offsets agree).
* A CodeMirror document is modeled as its list of lines (`List (List Char)`);
  `lineAt` / `line` mirror `Text.lineAt` / `Text.line`, returning `Option`
  to model the `RangeError` CodeMirror raises on out-of-range positions.
* The Lezer tree is modeled as the list of nodes visited by `tree.iterate`
  in visit order, each node carrying its `name`, `[from, to)` range and the
  name of its parent node (`none` for a detached/root parent).
* Builders that in TypeScript may throw (because an unguarded `lineAt` call
  may raise on a stale offset) return `Option`, `none` meaning the exception
  escapes the rebuild.
-/

/-! ### Basic string / list helpers (JS string operations) -/

/-- Model of `state.sliceDoc(from, to)` / `String.prototype.slice` on
a `List Char` document: the characters in `[f, t)`. -/
def listSlice (l : List Char) (f t : Nat) : List Char :=
  (l.drop f).take (t - f)

/-- JS whitespace test used by `String.prototype.trim` (ASCII part). -/
def isJsWs (c : Char) : Bool :=
  c = ' ' || c = '\t' || c = '\n' || c = '\r'

/-- Model of `String.prototype.trim`. -/
def jsTrim (l : List Char) : List Char :=
  ((l.dropWhile isJsWs).reverse.dropWhile isJsWs).reverse

/-- Model of `String.prototype.startsWith`. -/
def jsStartsWith (pat l : List Char) : Bool :=
  pat.isPrefixOf l

/-- Model of `String.prototype.includes` for a single character. -/
def jsIncludesChar (l : List Char) (c : Char) : Bool :=
  l.contains c

/-- Model of `String.prototype.toUpperCase` (ASCII part). -/
def jsToUpper (l : List Char) : List Char :=
  l.map Char.toUpper

/-! ### Document / line model

A CodeMirror `Text` is modeled by its list of lines (no newline characters
inside a line).  Offsets count characters, with one separator character
between adjacent lines, exactly as CodeMirror counts positions. -/

/-- The line information CodeMirror's `lineAt` / `line` return:
1-based line `number`, the line's start offset `lfrom`, and its text. -/
structure LineInfo where
  number : Nat
  lfrom : Nat
  text : List Char
deriving DecidableEq, Repr

/-- The end offset of a line (offset of its last character + 1, i.e. the
offset of the newline separator, `line.to` in CodeMirror). -/
def LineInfo.lto (l : LineInfo) : Nat := l.lfrom + l.text.length

/-- Total document length in characters (`doc.length` in CodeMirror):
line lengths plus one separator between adjacent lines. -/
def docLength : List (List Char) → Nat
  | [] => 0
  | [s] => s.length
  | s :: b :: rest => s.length + 1 + docLength (b :: rest)

/-- The full document text with newline separators
(`state.doc.toString()`). -/
def docChars : List (List Char) → List Char
  | [] => []
  | [s] => s
  | s :: b :: rest => s ++ '\n' :: docChars (b :: rest)

/-- Worker for `lineAt`: scan the lines with the running start offset and
1-based line number. -/
def lineAtAux : List (List Char) → Nat → Nat → Nat → Option LineInfo
  | [], _, _, _ => none
  | s :: rest, pos, start, num =>
    if pos ≤ start + s.length then some ⟨num, start, s⟩
    else lineAtAux rest pos (start + s.length + 1) (num + 1)

/-- Model of `doc.lineAt(pos)`: the line whose range `[from, to]` contains
`pos`; `none` models the `RangeError` raised for out-of-range positions. -/
def lineAt (doc : List (List Char)) (pos : Nat) : Option LineInfo :=
  lineAtAux doc pos 0 1

/-- Worker for `lineNum`. -/
def lineNumAux : List (List Char) → Nat → Nat → Nat → Option LineInfo
  | [], _, _, _ => none
  | s :: rest, n, start, num =>
    if n = num then some ⟨num, start, s⟩
    else lineNumAux rest n (start + s.length + 1) (num + 1)

/-- Model of `doc.line(n)` (1-based); `none` models the `RangeError` for an
out-of-range line number. -/
def lineNum (doc : List (List Char)) (n : Nat) : Option LineInfo :=
  lineNumAux doc n 0 1

/-! ### Selection model -/

/-- One selection range, `{anchor, head}` (`head = anchor` is a caret). -/
structure SelRange where
  anchor : Nat
  head : Nat
deriving DecidableEq, Repr

/-- `range.from` in CodeMirror: the lower end of the range. -/
def SelRange.lo (r : SelRange) : Nat := min r.anchor r.head

/-- `range.to` in CodeMirror: the upper end of the range. -/
def SelRange.hi (r : SelRange) : Nat := max r.anchor r.head

/-- `range.empty` in CodeMirror. -/
def SelRange.empty (r : SelRange) : Bool := r.anchor = r.head

/-- An editor selection: its ranges and the index of the main range. -/
structure Selection where
  ranges : List SelRange
  mainIndex : Nat
deriving DecidableEq, Repr

/-- `state.selection.main`. -/
def Selection.main (s : Selection) : SelRange :=
  s.ranges.getD s.mainIndex ⟨0, 0⟩

/-! ### Widgets and decorations -/

/-- The `MermaidWidget` class of `mermaid.ts` (its constructor state). -/
structure MermaidWidget where
  code : List Char
deriving DecidableEq, Repr

/-- `MermaidWidget.eq` from `mermaid.ts`: `this.code === other.code`. -/
def MermaidWidget.eq (a b : MermaidWidget) : Bool :=
  a.code == b.code

/-- The `ImageWidget` class of `images.ts` (its constructor state). -/
structure ImageWidget where
  url : List Char
  alt : List Char
deriving DecidableEq, Repr

/-- `ImageWidget.eq` from `images.ts`:
`this.url === other.url && this.alt === other.alt`. -/
def ImageWidget.eq (a b : ImageWidget) : Bool :=
  a.url == b.url && a.alt == b.alt

/-- The widget values constructed by the decoration builders. -/
inductive Widget
  | languageBadge (label : List Char)
  | checkbox (checked : Bool)
  | horizontalRule
  | bullet
  | divider
  | mermaid (w : MermaidWidget)
  | image (w : ImageWidget)
deriving DecidableEq, Repr

/-- The decoration values used by the embedded builders:
`Decoration.replace` with a class, `Decoration.replace` with a widget,
`Decoration.mark`, `Decoration.line`, and a block `Decoration.widget`. -/
inductive Deco
  | replaceClass (c : String)
  | replaceWidget (w : Widget)
  | markClass (c : String)
  | lineClass (c : String)
  | blockWidget (w : Widget)
deriving DecidableEq, Repr

/-- A positioned decoration, the `{from, to, value}` triples the builders
collect before committing them to a `RangeSetBuilder`. -/
structure DecoSpec where
  dfrom : Nat
  dto : Nat
  value : Deco
deriving DecidableEq, Repr

/-! ### The tree model -/

/-- One node of the Lezer tree as seen by `tree.iterate({enter})`: its
`name`, `[from, to)` range and the name of its parent (if any).  A tree is
modeled as the list of nodes in visit order. -/
structure SyntaxNode where
  name : String
  nfrom : Nat
  nto : Nat
  parentName : Option String
deriving DecidableEq, Repr

/-- Substring test, modeling `String.prototype.includes`. -/
def strContains (s pat : String) : Bool :=
  decide (pat.toList <:+: s.toList)

/-- Model of `parseInt(name.slice(-1))` restricted to its use in
`hideSyntaxField`: the value of the final character when it is a digit. -/
def lastCharDigit (s : String) : Option Nat :=
  match s.toList.getLast? with
  | some c => if c.isDigit then some (c.toNat - '0'.toNat) else none
  | none => none

/-! ### `syntaxHiding.ts`: the `hideSyntaxField` rebuild -/

/-- The `cm-codeblock-*` line class chosen in the `FencedCode` branch of
`hideSyntaxField` for line `i` of a block spanning lines `[s, e]`. -/
def fencedCls (s e i : Nat) : String :=
  if s = e then "cm-codeblock-line cm-codeblock-single"
  else if i = s then "cm-codeblock-line cm-codeblock-top"
  else if i = e then "cm-codeblock-line cm-codeblock-bottom"
  else "cm-codeblock-line cm-codeblock-middle"

/-- `headingDecorations[l - 1]` of `syntaxHiding.ts`: the line class for
heading level `l`. -/
def headingCls (l : Nat) : String :=
  "cm-line-h" ++ toString l

/-- The `for (let i = startLine; i <= endLine; i++)` loops of
`hideSyntaxField`: for each line number in `idxs` emit a zero-length line
decoration at the line start, with the class chosen by `cls`.  `none` when
some line number is out of range (`doc.line(i)` raised). -/
def lineDecosFor (doc : List (List Char)) (cls : Nat → String) :
    List Nat → Option (List DecoSpec)
  | [] => some []
  | i :: rest =>
    match lineNum doc i with
    | none => none
    | some l =>
      match lineDecosFor doc cls rest with
      | none => none
      | some ds => some (⟨l.lfrom, l.lfrom, .lineClass (cls i)⟩ :: ds)

/-- `lineText.replace(/[`~]/g, '')` from the `CodeMark` branch. -/
def stripFenceChars (l : List Char) : List Char :=
  l.filter (fun c => !(c = '`' || c = '~'))

/-- The regex test `/^\d+[.)]/.test(text)` of the `ListMark` branch:
one or more leading digits followed by `.` or `)`. -/
def numericListTest (s : List Char) : Bool :=
  let ds := s.takeWhile Char.isDigit
  !ds.isEmpty &&
    match s.drop ds.length with
    | c :: _ => c = '.' || c = ')'
    | [] => false

/-- The `FencedCode` branch of the `enter` callback in `hideSyntaxField`:
a line-class decoration for every line the node spans, with
single/top/bottom/middle classification. -/
def fencedEnter (doc : List (List Char)) (n : SyntaxNode) :
    Option (List DecoSpec) :=
  match lineAt doc n.nfrom, lineAt doc n.nto with
  | some ls, some le =>
    lineDecosFor doc (fencedCls ls.number le.number)
      (List.range' ls.number (le.number + 1 - ls.number))
  | _, _ => none

/-- The `if/else if` chain of the `enter` callback in `hideSyntaxField`
(everything except the separate `FencedCode` `if`).  `text` is the full
document text (for `sliceDoc`), `cursorLine` the line number of
`selection.main.from`, `nodeLine` the line number of `node.from`. -/
def hideChain (doc : List (List Char)) (text : List Char)
    (cursorLine nodeLine : Nat) (n : SyntaxNode) : Option (List DecoSpec) :=
  if n.name = "CodeMark" then
    if nodeLine ≠ cursorLine then
      match lineNum doc nodeLine with
      | none => none
      | some li =>
        if jsStartsWith "```".toList (jsTrim li.text) ||
            jsStartsWith "~~~".toList (jsTrim li.text) then
          let lang := jsTrim (stripFenceChars li.text)
          if lang ≠ [] then
            some [⟨n.nfrom, n.nto, .replaceWidget (.languageBadge (jsToUpper lang))⟩]
          else
            some [⟨n.nfrom, n.nto, .replaceClass "cm-syntax-marker"⟩]
        else some []
    else some []
  else if n.name = "TaskMarker" then
    if nodeLine ≠ cursorLine then
      let t := listSlice text n.nfrom n.nto
      let checked := jsIncludesChar t 'x' || jsIncludesChar t 'X'
      some [⟨n.nfrom, n.nto, .replaceWidget (.checkbox checked)⟩]
    else some []
  else if n.name = "HorizontalRule" then
    if nodeLine ≠ cursorLine then
      some [⟨n.nfrom, n.nto, .replaceWidget .horizontalRule⟩]
    else some []
  else if n.name = "ListMark" then
    if nodeLine ≠ cursorLine then
      let t := listSlice text n.nfrom n.nto
      if numericListTest t then
        some []
      else if jsTrim t = ['-'] || jsTrim t = ['*'] || jsTrim t = ['+'] then
        some [⟨n.nfrom, n.nto, .replaceWidget .bullet⟩]
      else
        some [⟨n.nfrom, n.nto, .replaceClass "cm-syntax-marker"⟩]
    else some []
  else if n.name = "HeaderMark" then
    if nodeLine ≠ cursorLine then
      some [⟨n.nfrom, n.nto, .replaceClass "cm-syntax-marker"⟩]
    else some []
  else if strContains n.name "ATXHeading" || strContains n.name "SetextHeading" then
    match lastCharDigit n.name with
    | some level =>
      if 1 ≤ level ∧ level ≤ 6 then
        match lineAt doc n.nfrom, lineAt doc n.nto with
        | some ls, some le =>
          lineDecosFor doc (fun _ => headingCls level)
            (List.range' ls.number (le.number + 1 - ls.number))
        | _, _ => none
      else some []
    | none => some []
  else if n.name = "QuoteMark" || n.name = "EmphasisMark" ||
      n.name = "StrongEmphasisMark" || n.name = "LinkMark" then
    if nodeLine ≠ cursorLine then
      some [⟨n.nfrom, n.nto, .replaceClass "cm-syntax-marker"⟩]
    else some []
  else some []

/-- The full `enter` callback of `hideSyntaxField` for one node: the
unconditional `nodeLine` computation, the `FencedCode` `if`, then the
chain.  `none` models an exception escaping the callback. -/
def hideEnter (doc : List (List Char)) (text : List Char)
    (cursorLine : Nat) (n : SyntaxNode) : Option (List DecoSpec) :=
  match lineAt doc n.nfrom with
  | none => none
  | some nodeLineInfo =>
    match (if n.name = "FencedCode" then fencedEnter doc n else some []) with
    | none => none
    | some fencedDecos =>
      match hideChain doc text cursorLine nodeLineInfo.number n with
      | none => none
      | some chainDecos => some (fencedDecos ++ chainDecos)

/-- Iterate `hideEnter` over the tree, concatenating the pushed
decorations in visit order. -/
def collectHide (doc : List (List Char)) (text : List Char)
    (cursorLine : Nat) : List SyntaxNode → Option (List DecoSpec)
  | [] => some []
  | n :: rest =>
    match hideEnter doc text cursorLine n with
    | none => none
    | some ds =>
      match collectHide doc text cursorLine rest with
      | none => none
      | some rs => some (ds ++ rs)

/-- The comparator `(a, b) => a.from - b.from || a.to - b.to` as a
"less or equal" relation: ordered by `from` ascending, then `to`
ascending. -/
def decoLe (a b : DecoSpec) : Prop :=
  a.dfrom < b.dfrom ∨ (a.dfrom = b.dfrom ∧ a.dto ≤ b.dto)

instance : DecidableRel decoLe := fun a b => by
  unfold decoLe; infer_instance

instance : IsTotal DecoSpec decoLe :=
  ⟨fun a b => by unfold decoLe; omega⟩

instance : IsTrans DecoSpec decoLe :=
  ⟨fun a b c hab hbc => by unfold decoLe at *; omega⟩

/-- `decos.sort((a, b) => a.from - b.from || a.to - b.to)`: a comparator
sort produces the sorted permutation of the input (stable insertion sort
models the observable result of `Array.prototype.sort`). -/
def sortDecos (l : List DecoSpec) : List DecoSpec :=
  List.insertionSort decoLe l

/-- The rebuild path of `hideSyntaxField.update`: compute the cursor line
from `selection.main.from`, iterate the tree collecting decorations, sort
them and commit.  `none` models an exception escaping the rebuild. -/
def hideFieldBuild (doc : List (List Char)) (sel : Selection)
    (tree : List SyntaxNode) : Option (List DecoSpec) :=
  match lineAt doc sel.main.lo with
  | none => none
  | some cursorLineInfo =>
    match collectHide doc (docChars doc) cursorLineInfo.number tree with
    | none => none
    | some decos => some (sortDecos decos)

/-! ### `syntax_hiding.ts`: `buildHidingDecorations` -/

/-- The `HIDEABLE_NODES` set of `syntax_hiding.ts`. -/
def hideableNodes : List String :=
  ["HeaderMark", "EmphasisMark", "StrikethroughMark", "QuoteMark",
   "LinkMark", "ImageMark"]

/-- `isLineActive(state, lineStart, lineEnd)` from `syntax_hiding.ts`:
some selection range has its head on the line, or spans across it. -/
def isLineActive (ranges : List SelRange) (lineStart lineEnd : Nat) : Bool :=
  ranges.any fun r =>
    (lineStart ≤ r.head && r.head ≤ lineEnd) ||
    (r.lo ≤ lineEnd && lineStart ≤ r.hi)

/-- The `enter` callback of `buildHidingDecorations`: hideable check,
guarded `lineAt` (the `try`/`catch` that skips the node on a
`RangeError`), active-line check, then the per-kind decoration. -/
def hidingEnter (doc : List (List Char)) (ranges : List SelRange)
    (n : SyntaxNode) : List DecoSpec :=
  let isHideable := hideableNodes.contains n.name ||
    n.name = "HorizontalRule" || n.name = "CodeMark" || n.name = "URL"
  if !isHideable then []
  else
    match lineAt doc n.nfrom with
    | none => []
    | some line =>
      if isLineActive ranges line.lfrom line.lto then []
      else if n.name = "HorizontalRule" then
        [⟨n.nfrom, n.nto, .replaceWidget .divider⟩]
      else if n.name = "CodeMark" then
        match n.parentName with
        | some p =>
          if p ≠ "InlineCode" then []
          else [⟨n.nfrom, n.nto, .markClass "cm-syntax-hidden"⟩]
        | none => [⟨n.nfrom, n.nto, .markClass "cm-syntax-hidden"⟩]
      else if n.name = "URL" then
        match n.parentName with
        | some p =>
          if p = "Link" || p = "Image" then
            [⟨n.nfrom, n.nto, .markClass "cm-syntax-hidden"⟩]
          else []
        | none => []
      else if hideableNodes.contains n.name then
        [⟨n.nfrom, n.nto, .markClass "cm-syntax-hidden"⟩]
      else []

/-- `buildHidingDecorations(state)`: iterate the tree, adding each node's
decorations in visit order. -/
def buildHidingDecorations (doc : List (List Char)) (ranges : List SelRange)
    (tree : List SyntaxNode) : List DecoSpec :=
  (tree.map (hidingEnter doc ranges)).flatten

/-! ### `styling.ts`: `hideMarksExtension` -/

/-- The active-line set computed by `computeDecorations` in `styling.ts`:
for a caret, the line of `selection.main.head`; for a range selection, all
lines from `lineAt(main.from).number` to `lineAt(main.to).number`.  `none`
models a `RangeError` on an invalid selection offset. -/
def computeActiveLines (doc : List (List Char)) (sel : Selection) :
    Option (List Nat) :=
  let m := sel.main
  if m.empty then
    match lineAt doc m.head with
    | none => none
    | some l => some [l.number]
  else
    match lineAt doc m.lo, lineAt doc m.hi with
    | some s, some e => some (List.range' s.number (e.number + 1 - s.number))
    | _, _ => none

/-- The marker-node names matched by `computeDecorations` in
`styling.ts`. -/
def stylingMarkNames : List String :=
  ["HeaderMark", "QuoteMark", "ListMark", "EmphasisMark", "TaskMarker",
   "CodeMark", "LinkMark"]

/-- The per-node body of `computeDecorations` in `styling.ts`: on inactive
lines markers get the hidden mark class (task markers the checkbox mark
class); on active lines only task markers get the checkbox mark class. -/
def styleEnter (doc : List (List Char)) (activeLines : List Nat)
    (n : SyntaxNode) : Option (List DecoSpec) :=
  if stylingMarkNames.contains n.name then
    match lineAt doc n.nfrom with
    | none => none
    | some line =>
      if !activeLines.contains line.number then
        if n.name = "TaskMarker" then
          some [⟨n.nfrom, n.nto, .markClass "cm-formatting-task"⟩]
        else
          some [⟨n.nfrom, n.nto, .markClass "cm-formatting-hidden"⟩]
      else
        if n.name = "TaskMarker" then
          some [⟨n.nfrom, n.nto, .markClass "cm-formatting-task"⟩]
        else some []
  else some []

/-! ### `mermaid.ts` and `images.ts`: regex scans and field updates -/

/-- Lazy scan up to the first occurrence of the separator `sep`, failing on
a character for which `stop` holds; returns the consumed characters and
the rest after the separator.  This models the non-greedy capture groups
`([\s\S]*?)` (with `stop` never true) and `(.*?)` (with `stop` true on a
newline) followed by a literal separator. -/
def scanToSep (sep : List Char) (stop : Char → Bool) :
    List Char → Option (List Char × List Char)
  | [] => none
  | c :: rest =>
    if sep.isPrefixOf (c :: rest) then some ([], (c :: rest).drop sep.length)
    else if stop c then none
    else
      match scanToSep sep stop rest with
      | some (a, b) => some (c :: a, b)
      | none => none

/-- One attempted match of `/```mermaid\n([\s\S]*?)```/` at the head of
`r`: the captured diagram source.  The total match length is
`11 + code.length + 3` (opening literal, lazy capture, closing fence). -/
def matchMermaid (r : List Char) : Option (List Char) :=
  if "```mermaid\n".toList.isPrefixOf r then
    match scanToSep "```".toList (fun _ => false) (r.drop 11) with
    | some (code, _) => some code
    | none => none
  else none

/-- A regex match produced by the global scans: match start, match end and
the captured groups, as `(index, end, captures)`. -/
structure RegexMatch where
  mstart : Nat
  mend : Nat
  cap1 : List Char
  cap2 : List Char
deriving DecidableEq, Repr

/-- The `while ((match = regex.exec(text)))` loop for the mermaid regex:
repeated first-match scanning, resuming after each match end.  The loop
consumes at least one character per iteration, so fuel equal to the text
length is always enough; fuel makes the recursion structural. -/
def scanMermaidAux : Nat → List Char → Nat → List RegexMatch
  | 0, _, _ => []
  | _, [], _ => []
  | fuel + 1, l@(_ :: rest), i =>
    match matchMermaid l with
    | some code =>
      ⟨i, i + (11 + code.length + 3), code, []⟩ ::
        scanMermaidAux fuel (l.drop (11 + code.length + 3))
          (i + (11 + code.length + 3))
    | none => scanMermaidAux fuel rest (i + 1)

/-- All matches of the global mermaid regex over the text. -/
def scanMermaid (l : List Char) (i : Nat) : List RegexMatch :=
  scanMermaidAux l.length l i

/-- One attempted match of `/!\[(.*?)\]\((.*?)\)/` at the head of `r`:
the captured alt text and url.  The total match length is
`2 + alt.length + 2 + url.length + 1`. -/
def matchImage (r : List Char) : Option (List Char × List Char) :=
  if "![".toList.isPrefixOf r then
    match scanToSep "](".toList (fun c => c = '\n') (r.drop 2) with
    | some (alt, rest1) =>
      match scanToSep [')'] (fun c => c = '\n') rest1 with
      | some (url, _) => some (alt, url)
      | none => none
    | none => none
  else none

/-- The `while ((match = regex.exec(text)))` loop for the image regex,
with the same structural-fuel scheme as `scanMermaidAux`. -/
def scanImagesAux : Nat → List Char → Nat → List RegexMatch
  | 0, _, _ => []
  | _, [], _ => []
  | fuel + 1, l@(_ :: rest), i =>
    match matchImage l with
    | some (alt, url) =>
      ⟨i, i + (2 + alt.length + 2 + url.length + 1), alt, url⟩ ::
        scanImagesAux fuel (l.drop (2 + alt.length + 2 + url.length + 1))
          (i + (2 + alt.length + 2 + url.length + 1))
    | none => scanImagesAux fuel rest (i + 1)

/-- All matches of the global image regex over the text. -/
def scanImages (l : List Char) (i : Nat) : List RegexMatch :=
  scanImagesAux l.length l i

/-- `buildDecorations(text)` from `mermaid.ts`: a zero-length block widget
decoration at each match end, holding a `MermaidWidget` over the captured
source. -/
def buildMermaidDecorations (text : List Char) : List DecoSpec :=
  (scanMermaid text 0).map fun m =>
    ⟨m.mend, m.mend, .blockWidget (.mermaid ⟨m.cap1⟩)⟩

/-- `buildDecorations(text)` from `images.ts`: a zero-length block widget
decoration at each match end, holding an `ImageWidget ⟨url, alt⟩`. -/
def buildImageDecorations (text : List Char) : List DecoSpec :=
  (scanImages text 0).map fun m =>
    ⟨m.mend, m.mend, .blockWidget (.image ⟨m.cap2, m.cap1⟩)⟩

/-- One replaced range of a change set, `(from, to, insert-length)`. -/
structure ChangeOp where
  cfrom : Nat
  cto : Nat
  insLen : Nat
deriving DecidableEq, Repr

/-- Position mapping through a change set (`changes.mapPos`): positions
after a replaced range shift by the length delta.  A transaction with no
document change has the empty change set, for which this is the
identity. -/
def mapPos (cs : List ChangeOp) (pos : Nat) : Nat :=
  cs.foldl (fun p c => if c.cto ≤ p then p + c.insLen - (c.cto - c.cfrom) else p) pos

/-- `RangeSet.map(changes)` on the embedded decoration list. -/
def mapDecoSet (cs : List ChangeOp) (s : List DecoSpec) : List DecoSpec :=
  s.map fun d => ⟨mapPos cs d.dfrom, mapPos cs d.dto, d.value⟩

/-- A transaction as the decoration fields see it: whether the document
changed, the change set, and the new document text. -/
structure Transaction where
  docChanged : Bool
  changes : List ChangeOp
  newText : List Char
deriving DecidableEq, Repr

/-- The `update` function of `mermaidField`: rebuild from the full text on
a document change, otherwise map the previous set through the changes. -/
def mermaidFieldUpdate (prev : List DecoSpec) (tr : Transaction) :
    List DecoSpec :=
  if tr.docChanged then buildMermaidDecorations tr.newText
  else mapDecoSet tr.changes prev

/-- The `update` function of `imageField`: same shape as `mermaidField`. -/
def imageFieldUpdate (prev : List DecoSpec) (tr : Transaction) :
    List DecoSpec :=
  if tr.docChanged then buildImageDecorations tr.newText
  else mapDecoSet tr.changes prev

/-! ### `editor.ts`: `wrapSelection` -/

/-- An editor state as `wrapSelection` uses it: the document text and the
main selection's anchor and head. -/
structure EditorState where
  doc : List Char
  anchor : Nat
  head : Nat
deriving DecidableEq, Repr

/-- `wrapSelection(prefix, suffix)` from `editor.ts`: if the text
immediately around the selection already equals the markers, remove them
and select the inner text; otherwise insert the markers around the
selection and select the inner text. -/
def wrapSelection (pre suf : List Char) (st : EditorState) : EditorState :=
  let f := min st.anchor st.head
  let t := max st.anchor st.head
  let selectedText := listSlice st.doc f t
  let beforeStart := f - pre.length
  let afterEnd := min st.doc.length (t + suf.length)
  let textBefore := listSlice st.doc beforeStart f
  let textAfter := listSlice st.doc t afterEnd
  if textBefore = pre ∧ textAfter = suf then
    { doc := st.doc.take beforeStart ++ listSlice st.doc f t ++ st.doc.drop afterEnd,
      anchor := beforeStart,
      head := beforeStart + selectedText.length }
  else
    { doc := st.doc.take f ++ pre ++ selectedText ++ suf ++ st.doc.drop t,
      anchor := f + pre.length,
      head := f + pre.length + selectedText.length }

/-- `editorAPI.toggleBold`: `wrapSelection("**")` (the suffix defaults to
the prefix). -/
def toggleBold (st : EditorState) : EditorState :=
  wrapSelection "**".toList "**".toList st

/-! ### Predicates used by the claims -/

/-- The node names for which the `hideSyntaxField` chain can emit an
inline (non-line) decoration spanning the node's own range. -/
def inlineEmitName (s : String) : Bool :=
  s = "CodeMark" || s = "TaskMarker" || s = "HorizontalRule" ||
  s = "ListMark" || s = "HeaderMark" || s = "QuoteMark" ||
  s = "EmphasisMark" || s = "StrongEmphasisMark" || s = "LinkMark"

/-- The mutually-exclusive inline decoration kinds of the claim:
hide (`replaceClass`), replace-with-widget, and mark. -/
def isMutexInline : Deco → Bool
  | .replaceClass _ => true
  | .replaceWidget _ => true
  | .markClass _ => true
  | .lineClass _ => false
  | .blockWidget _ => false

/-- Two decorations overlap when their `[from, to)` ranges intersect. -/
def decoOverlap (a b : DecoSpec) : Prop :=
  a.dfrom < b.dto ∧ b.dfrom < a.dto

/-- Modelled from the spec (Cursor-Proximity Policy): line `n` is active
for `ranges` when some range `{anchor, head}` overlaps it, where a range
covers `[min(anchor, head), max(anchor, head)]` inclusive of boundary
lines, and a caret (`anchor = head`) covers exactly its own offset. -/
def specLineActive (doc : List (List Char)) (ranges : List SelRange)
    (n : Nat) : Bool :=
  ranges.any fun r =>
    match lineNum doc n with
    | some L =>
      decide (L.lfrom ≤ max r.anchor r.head ∧
        min r.anchor r.head ≤ L.lfrom + L.text.length)
    | none => false

/-! ### Line-model lemmas -/

theorem lineNumAux_spec {doc : List (List Char)} {n start num : Nat}
    {L : LineInfo} (h : lineNumAux doc n start num = some L) :
    L.number = n ∧ num ≤ n ∧ start ≤ L.lfrom := by
  induction doc generalizing start num with
  | nil => simp [lineNumAux] at h
  | cons s rest ih =>
    unfold lineNumAux at h
    split at h
    · cases h
      simp_all
    · have h2 := ih h
      omega

theorem lineAtAux_num_lfrom {doc : List (List Char)} {pos start num : Nat}
    {L : LineInfo} (h : lineAtAux doc pos start num = some L) :
    num ≤ L.number ∧ start ≤ L.lfrom := by
  induction doc generalizing start num with
  | nil => simp [lineAtAux] at h
  | cons s rest ih =>
    unfold lineAtAux at h
    split at h
    · cases h
      simp
    · have h2 := ih h
      omega

theorem lineAtAux_bounds {doc : List (List Char)} {pos start num : Nat}
    {L : LineInfo} (hsp : start ≤ pos)
    (h : lineAtAux doc pos start num = some L) :
    L.lfrom ≤ pos ∧ pos ≤ L.lfrom + L.text.length := by
  induction doc generalizing start num with
  | nil => simp [lineAtAux] at h
  | cons s rest ih =>
    unfold lineAtAux at h
    split at h
    · cases h
      simp_all
    · rename_i hgt
      exact ih (by omega) h

theorem lineAtAux_to_lineNumAux {doc : List (List Char)} {pos start num : Nat}
    {L : LineInfo} (h : lineAtAux doc pos start num = some L) :
    lineNumAux doc L.number start num = some L := by
  induction doc generalizing start num with
  | nil => simp [lineAtAux] at h
  | cons s rest ih =>
    unfold lineAtAux at h
    split at h
    · cases h
      simp [lineNumAux]
    · have hnum := lineAtAux_num_lfrom h
      have h2 := ih h
      unfold lineNumAux
      rw [if_neg (by omega)]
      exact h2

theorem lineNumAux_sep {doc : List (List Char)} {n m start num : Nat}
    {L M : LineInfo} (hn : lineNumAux doc n start num = some L)
    (hm : lineNumAux doc m start num = some M) (hlt : n < m) :
    L.lfrom + L.text.length + 1 ≤ M.lfrom := by
  induction doc generalizing start num with
  | nil => simp [lineNumAux] at hn
  | cons s rest ih =>
    have hLs := lineNumAux_spec hn
    have hMs := lineNumAux_spec hm
    unfold lineNumAux at hn hm
    rw [if_neg (by omega)] at hm
    split at hn
    · cases hn
      have hMs2 := lineNumAux_spec hm
      show start + s.length + 1 ≤ M.lfrom
      omega
    · exact ih hn hm

theorem lineNumAux_exists {doc : List (List Char)} {n2 start num : Nat}
    {M : LineInfo} (h2 : lineNumAux doc n2 start num = some M)
    (n : Nat) (hlo : num ≤ n) (hhi : n ≤ n2) :
    ∃ L, lineNumAux doc n start num = some L := by
  induction doc generalizing start num with
  | nil => simp [lineNumAux] at h2
  | cons s rest ih =>
    by_cases hn : n = num
    · exact ⟨⟨num, start, s⟩, by simp [lineNumAux, hn]⟩
    · have hnum2 := lineNumAux_spec h2
      unfold lineNumAux at h2
      rw [if_neg (by omega)] at h2
      obtain ⟨L, hL⟩ := ih h2 (by omega)
      exact ⟨L, by unfold lineNumAux; rw [if_neg hn]; exact hL⟩

theorem lineNumAux_to_lineAtAux {doc : List (List Char)} {n start num pos : Nat}
    {L : LineInfo} (h : lineNumAux doc n start num = some L)
    (hlo : L.lfrom ≤ pos) (hhi : pos ≤ L.lfrom + L.text.length) :
    lineAtAux doc pos start num = some L := by
  induction doc generalizing start num with
  | nil => simp [lineNumAux] at h
  | cons s rest ih =>
    unfold lineNumAux at h
    split at h
    · cases h
      unfold lineAtAux
      rw [if_pos (by simp_all)]
    · have hsp := lineNumAux_spec h
      unfold lineAtAux
      rw [if_neg (by omega)]
      exact ih h

theorem lineAtAux_le_docLength {doc : List (List Char)} {pos start num : Nat}
    {L : LineInfo} (h : lineAtAux doc pos start num = some L) :
    pos ≤ start + docLength doc := by
  induction doc generalizing start num with
  | nil => simp [lineAtAux] at h
  | cons s rest ih =>
    unfold lineAtAux at h
    split at h
    · rename_i hle
      cases rest <;> simp [docLength] <;> omega
    · have h2 := ih h
      cases rest with
      | nil => simp [lineAtAux] at h
      | cons b tl =>
        simp [docLength] at h2 ⊢
        omega

theorem lineAt_none_of_gt {doc : List (List Char)} {pos : Nat}
    (h : docLength doc < pos) : lineAt doc pos = none := by
  cases hl : lineAt doc pos with
  | none => rfl
  | some L =>
    have h2 : pos ≤ 0 + docLength doc := lineAtAux_le_docLength hl
    omega

theorem lineAt_number_mono {doc : List (List Char)} {p1 p2 : Nat}
    {L1 L2 : LineInfo} (h1 : lineAt doc p1 = some L1)
    (h2 : lineAt doc p2 = some L2) (hle : p1 ≤ p2) :
    L1.number ≤ L2.number := by
  by_contra hgt
  push_neg at hgt
  have hn1 := lineAtAux_to_lineNumAux h1
  have hn2 := lineAtAux_to_lineNumAux h2
  have hsep := lineNumAux_sep hn2 hn1 hgt
  have hb1 := lineAtAux_bounds (Nat.zero_le _) h1
  have hb2 := lineAtAux_bounds (Nat.zero_le _) h2
  omega

/-! ### Claim C8: widget equality is structural -/

/-- C8: widget equality used for reuse is structural content only and is
independent of document offsets: two `MermaidWidget`s compare equal iff
their diagram sources are equal, and two `ImageWidget`s compare equal iff
their `url` and `alt` strings are equal.  (Neither widget stores any
document offset, so equality cannot depend on one.) -/
theorem claim_C8_widget_eq_structural :
    (∀ a b : MermaidWidget, MermaidWidget.eq a b = true ↔ a.code = b.code) ∧
    (∀ a b : ImageWidget,
      ImageWidget.eq a b = true ↔ a.url = b.url ∧ a.alt = b.alt) := by
  constructor
  · intro a b
    simp [MermaidWidget.eq]
  · intro a b
    simp [ImageWidget.eq]

/-! ### Claim C9: the builders are deterministic -/

/-- C9: running a decoration builder twice on the same inputs yields
identical decoration sequences; the builds (`hideSyntaxField`'s rebuild,
`images.ts`' and `mermaid.ts`' `buildDecorations`) are functions of the
(document, selection, tree) inputs alone. -/
theorem claim_C9_build_deterministic (doc : List (List Char))
    (sel : Selection) (tree : List SyntaxNode) (text : List Char)
    (r1 r2 s1 s2 t1 t2 : _)
    (h1 : hideFieldBuild doc sel tree = r1)
    (h2 : hideFieldBuild doc sel tree = r2)
    (h3 : buildImageDecorations text = s1)
    (h4 : buildImageDecorations text = s2)
    (h5 : buildMermaidDecorations text = t1)
    (h6 : buildMermaidDecorations text = t2) :
    r1 = r2 ∧ s1 = s2 ∧ t1 = t2 := by
  subst h1 h2 h3 h4 h5 h6
  exact ⟨rfl, rfl, rfl⟩

/-- Witness for C9 at a concrete document, selection, tree and text. -/
theorem claim_C9_build_deterministic_witness :
    hideFieldBuild [("# a".toList)] ⟨[⟨0, 0⟩], 0⟩ [⟨"HeaderMark", 0, 1, none⟩] =
      hideFieldBuild [("# a".toList)] ⟨[⟨0, 0⟩], 0⟩ [⟨"HeaderMark", 0, 1, none⟩] ∧
    buildImageDecorations "![a](u)".toList = buildImageDecorations "![a](u)".toList ∧
    buildMermaidDecorations "x".toList = buildMermaidDecorations "x".toList :=
  claim_C9_build_deterministic [("# a".toList)] ⟨[⟨0, 0⟩], 0⟩
    [⟨"HeaderMark", 0, 1, none⟩] "![a](u)".toList _ _ _ _ _ _
    rfl rfl rfl rfl rfl rfl

/-! ### Claim C7: selection-only transactions keep the widget sets -/

/-- C7: on a transaction with no document change (a pure selection change,
whose change set is empty), `mermaidField.update` and `imageField.update`
return the previous decoration set mapped through the identity change
mapping, i.e. exactly the previous set — no widget decoration is rebuilt,
destroyed or created. -/
theorem claim_C7_selection_only_keeps_sets (prev : List DecoSpec)
    (tr : Transaction) (hdoc : tr.docChanged = false)
    (hch : tr.changes = []) :
    mermaidFieldUpdate prev tr = prev ∧ imageFieldUpdate prev tr = prev := by
  unfold mermaidFieldUpdate imageFieldUpdate
  rw [hdoc, hch]
  simp [mapDecoSet, mapPos]

/-- Witness for C7: a selection-only transaction over a document holding a
mermaid widget decoration leaves the set untouched. -/
theorem claim_C7_selection_only_keeps_sets_witness :
    mermaidFieldUpdate [⟨16, 16, .blockWidget (.mermaid ⟨['x']⟩)⟩]
        ⟨false, [], "```mermaid\nx\n```".toList⟩ =
      [⟨16, 16, .blockWidget (.mermaid ⟨['x']⟩)⟩] ∧
    imageFieldUpdate [⟨7, 7, .blockWidget (.image ⟨['u'], ['a']⟩)⟩]
        ⟨false, [], "![a](u)".toList⟩ =
      [⟨7, 7, .blockWidget (.image ⟨['u'], ['a']⟩)⟩] := by
  constructor
  · exact (claim_C7_selection_only_keeps_sets _ _ rfl rfl).1
  · exact (claim_C7_selection_only_keeps_sets _ _ rfl rfl).2

/-! ### Claim C2: task-list markers -/

/-- C2 counterexample: document `- [ ] a` with the caret at offset 0 (so
the cursor is on the task marker's line).  The claim says a checkbox
replace widget is always emitted, but the rebuild emits no decoration at
all for the `TaskMarker` node — the raw `[ ]` text is shown. -/
theorem claim_C2_counterexample :
    hideFieldBuild [("- [ ] a".toList)] ⟨[⟨0, 0⟩], 0⟩
      [⟨"TaskMarker", 2, 5, none⟩] = some [] := by decide

/-- C2 (amended): `hideSyntaxField` replaces a `TaskMarker` with a
checkbox widget only when the marker's line is not the cursor line (the
checkbox state being whether the slice contains `x` or `X`); when the
cursor is on the marker's line it emits nothing, so the raw marker text
reappears.  (`styling.ts`' `hideMarksExtension`, by contrast, always adds
the `cm-formatting-task` mark class to a `TaskMarker`, active or not, but
never replaces it with a widget.) -/
theorem claim_C2_amended (doc : List (List Char)) (text : List Char)
    (cursorLine : Nat) (n : SyntaxNode) (li : LineInfo)
    (hname : n.name = "TaskMarker")
    (hline : lineAt doc n.nfrom = some li) :
    (li.number ≠ cursorLine →
      hideEnter doc text cursorLine n =
        some [⟨n.nfrom, n.nto, .replaceWidget (.checkbox
          (jsIncludesChar (listSlice text n.nfrom n.nto) 'x' ||
           jsIncludesChar (listSlice text n.nfrom n.nto) 'X'))⟩]) ∧
    (li.number = cursorLine → hideEnter doc text cursorLine n = some []) ∧
    (∀ activeLines : List Nat, styleEnter doc activeLines n =
        some [⟨n.nfrom, n.nto, .markClass "cm-formatting-task"⟩]) := by
  refine ⟨?_, ?_, ?_⟩
  · intro hne
    simp [hideEnter, hideChain, hline, hname, hne]
  · intro heq
    simp [hideEnter, hideChain, hline, hname, heq]
  · intro activeLines
    simp only [styleEnter, hname, hline]
    norm_num [stylingMarkNames]

/-- Witness for C2 (amended): document `x` / `- [x] a`, task marker on
line 2, cursor line 1. -/
theorem claim_C2_amended_witness :
    ((⟨2, 2, "- [x] a".toList⟩ : LineInfo).number ≠ 1 →
      hideEnter [("x".toList), ("- [x] a".toList)]
          (docChars [("x".toList), ("- [x] a".toList)]) 1
          ⟨"TaskMarker", 4, 7, none⟩ =
        some [⟨4, 7, .replaceWidget (.checkbox
          (jsIncludesChar (listSlice (docChars [("x".toList), ("- [x] a".toList)]) 4 7) 'x' ||
           jsIncludesChar (listSlice (docChars [("x".toList), ("- [x] a".toList)]) 4 7) 'X'))⟩]) ∧
    ((⟨2, 2, "- [x] a".toList⟩ : LineInfo).number = 1 →
      hideEnter [("x".toList), ("- [x] a".toList)]
          (docChars [("x".toList), ("- [x] a".toList)]) 1
          ⟨"TaskMarker", 4, 7, none⟩ = some []) ∧
    (∀ activeLines : List Nat,
      styleEnter [("x".toList), ("- [x] a".toList)] activeLines
          ⟨"TaskMarker", 4, 7, none⟩ =
        some [⟨4, 7, .markClass "cm-formatting-task"⟩]) :=
  claim_C2_amended [("x".toList), ("- [x] a".toList)]
    (docChars [("x".toList), ("- [x] a".toList)]) 1
    ⟨"TaskMarker", 4, 7, none⟩ ⟨2, 2, "- [x] a".toList⟩ rfl (by decide)

/-- A JS whitespace character is not a digit. -/
theorem jsWs_not_digit {c : Char} (h : isJsWs c = true) : c.isDigit = false := by
  simp only [isJsWs, Bool.or_eq_true, decide_eq_true_eq] at h
  rcases h with ((h | h) | h) | h <;> subst h <;> decide

/-- `numericListTest` fails when the first character is not a digit. -/
theorem numericListTest_false_of_head (c : Char) (rest : List Char)
    (hc : c.isDigit = false) : numericListTest (c :: rest) = false := by
  simp [numericListTest, List.takeWhile_cons, hc]

/-- A list splits as leading whitespace, its trim, and trailing
whitespace. -/
theorem jsTrim_decomp (t : List Char) :
    ∃ p s, t = p ++ jsTrim t ++ s ∧ ∀ c ∈ p, isJsWs c = true := by
  refine ⟨t.takeWhile isJsWs,
    ((t.dropWhile isJsWs).reverse.takeWhile isJsWs).reverse, ?_, ?_⟩
  · have h1 : t = t.takeWhile isJsWs ++ t.dropWhile isJsWs :=
      (List.takeWhile_append_dropWhile (p := isJsWs) (l := t)).symm
    have h2 := List.takeWhile_append_dropWhile (p := isJsWs)
      (l := (t.dropWhile isJsWs).reverse)
    have h3 : t.dropWhile isJsWs =
        jsTrim t ++ ((t.dropWhile isJsWs).reverse.takeWhile isJsWs).reverse := by
      have h4 := congrArg List.reverse h2
      simp only [List.reverse_append, List.reverse_reverse] at h4
      simp only [jsTrim]
      exact h4.symm
    calc t = t.takeWhile isJsWs ++ t.dropWhile isJsWs := h1
      _ = t.takeWhile isJsWs ++
            (jsTrim t ++ ((t.dropWhile isJsWs).reverse.takeWhile isJsWs).reverse) := by
          rw [← h3]
      _ = t.takeWhile isJsWs ++ jsTrim t ++
            ((t.dropWhile isJsWs).reverse.takeWhile isJsWs).reverse :=
          (List.append_assoc _ _ _).symm
  · intro c hc
    exact List.mem_takeWhile_imp hc

/-- A slice that trims to a single non-digit character fails the numeric
list test. -/
theorem numericListTest_false_of_trim_single (t : List Char) (c : Char)
    (hc : c.isDigit = false) (ht : jsTrim t = [c]) :
    numericListTest t = false := by
  obtain ⟨p, s, hdecomp, hws⟩ := jsTrim_decomp t
  rw [ht] at hdecomp
  cases p with
  | nil =>
    simp only [List.nil_append, List.singleton_append] at hdecomp
    rw [hdecomp]
    exact numericListTest_false_of_head c s hc
  | cons w p2 =>
    simp only [List.cons_append] at hdecomp
    rw [hdecomp]
    exact numericListTest_false_of_head w (p2 ++ [c] ++ s)
      (jsWs_not_digit (hws w (by simp)))

/-! ### Claim C6: list markers -/

/-- C6: a numeric list marker (slice matching `/^\d+[.)]/`) is never
hidden and never replaced, for every cursor line (active or not); a
bullet marker `-`, `*` or `+` on an inactive line is replaced with the
styled bullet glyph widget. -/
theorem claim_C6_list_markers (doc : List (List Char)) (text : List Char)
    (cursorLine : Nat) (n : SyntaxNode) (li : LineInfo)
    (hname : n.name = "ListMark")
    (hline : lineAt doc n.nfrom = some li) :
    (numericListTest (listSlice text n.nfrom n.nto) = true →
      hideEnter doc text cursorLine n = some []) ∧
    ((jsTrim (listSlice text n.nfrom n.nto) = ['-'] ∨
      jsTrim (listSlice text n.nfrom n.nto) = ['*'] ∨
      jsTrim (listSlice text n.nfrom n.nto) = ['+']) →
      li.number ≠ cursorLine →
      hideEnter doc text cursorLine n =
        some [⟨n.nfrom, n.nto, .replaceWidget .bullet⟩]) := by
  constructor
  · intro hnum
    by_cases hne : li.number = cursorLine
    · simp [hideEnter, hideChain, hline, hname, hne]
    · simp [hideEnter, hideChain, hline, hname, hne, hnum]
  · intro hbul hne
    have hnum : numericListTest (listSlice text n.nfrom n.nto) = false := by
      rcases hbul with hb | hb | hb <;>
        exact numericListTest_false_of_trim_single _ _ (by decide) hb
    rcases hbul with hb | hb | hb <;>
      simp [hideEnter, hideChain, hline, hname, hne, hnum, hb]

/-- Witness for C6: document `x` / `1. a` with a numeric marker, and
document `x` / `- a` with a bullet marker, both with the cursor on
line 1. -/
theorem claim_C6_list_markers_witness :
    (numericListTest (listSlice (docChars [("x".toList), ("1. a".toList)]) 2 4) = true →
      hideEnter [("x".toList), ("1. a".toList)]
        (docChars [("x".toList), ("1. a".toList)]) 1
        ⟨"ListMark", 2, 4, none⟩ = some []) ∧
    ((jsTrim (listSlice (docChars [("x".toList), ("1. a".toList)]) 2 4) = ['-'] ∨
      jsTrim (listSlice (docChars [("x".toList), ("1. a".toList)]) 2 4) = ['*'] ∨
      jsTrim (listSlice (docChars [("x".toList), ("1. a".toList)]) 2 4) = ['+']) →
      (⟨2, 2, "1. a".toList⟩ : LineInfo).number ≠ 1 →
      hideEnter [("x".toList), ("1. a".toList)]
        (docChars [("x".toList), ("1. a".toList)]) 1
        ⟨"ListMark", 2, 4, none⟩ =
        some [⟨2, 4, .replaceWidget .bullet⟩]) :=
  claim_C6_list_markers [("x".toList), ("1. a".toList)]
    (docChars [("x".toList), ("1. a".toList)]) 1
    ⟨"ListMark", 2, 4, none⟩ ⟨2, 2, "1. a".toList⟩ rfl (by decide)

/-! ### Claim C4: stale (out-of-bounds) tree nodes -/

/-- An out-of-bounds `node.from` makes the unguarded `lineAt` call of
`hideSyntaxField`'s `enter` raise. -/
theorem hideEnter_none_of_oob (doc : List (List Char)) (text : List Char)
    (cursorLine : Nat) (n : SyntaxNode) (h : docLength doc < n.nfrom) :
    hideEnter doc text cursorLine n = none := by
  unfold hideEnter
  rw [lineAt_none_of_gt h]

/-- An exception in any node's `enter` escapes the whole collection. -/
theorem collectHide_none_of_mem (doc : List (List Char)) (text : List Char)
    (cursorLine : Nat) {tree : List SyntaxNode} {n : SyntaxNode}
    (hn : n ∈ tree) (h : hideEnter doc text cursorLine n = none) :
    collectHide doc text cursorLine tree = none := by
  induction tree with
  | nil => cases hn
  | cons m rest ih =>
    unfold collectHide
    rcases List.mem_cons.mp hn with hn | hn
    · subst hn
      rw [h]
    · cases hm : hideEnter doc text cursorLine m with
      | none => rfl
      | some ds => rw [ih hn]

/-- `buildHidingDecorations`' guarded `lineAt` makes an out-of-bounds node
contribute nothing. -/
theorem hidingEnter_oob (doc : List (List Char)) (ranges : List SelRange)
    (n : SyntaxNode) (h : docLength doc < n.nfrom) :
    hidingEnter doc ranges n = [] := by
  unfold hidingEnter
  rw [lineAt_none_of_gt h]
  simp

/-- C4 counterexample: a one-character document with a stale `HeaderMark`
node at offsets `[5, 6)`.  `hideSyntaxField`'s rebuild does not skip the
node and continue (which would produce the same result as the tree
without it, `some []`): it aborts with an exception (`none`). -/
theorem claim_C4_counterexample :
    hideFieldBuild [['a']] ⟨[⟨0, 0⟩], 0⟩ [⟨"HeaderMark", 5, 6, none⟩] = none ∧
    hideFieldBuild [['a']] ⟨[⟨0, 0⟩], 0⟩ [] = some [] := by
  constructor <;> decide

/-- C4 (amended): only `syntax_hiding.ts`' `buildHidingDecorations` skips
a node whose offset lies beyond the document (its `try`/`catch`), building
the same set as for the tree without that node; `syntaxHiding.ts`'
`hideSyntaxField` has no such guard, and the exception escapes the whole
rebuild (no decoration set is produced). -/
theorem claim_C4_amended (doc : List (List Char)) (ranges : List SelRange)
    (sel : Selection) (t1 t2 : List SyntaxNode) (bad : SyntaxNode)
    (hbad : docLength doc < bad.nfrom) :
    buildHidingDecorations doc ranges (t1 ++ bad :: t2) =
      buildHidingDecorations doc ranges (t1 ++ t2) ∧
    hideFieldBuild doc sel (t1 ++ bad :: t2) = none := by
  constructor
  · simp [buildHidingDecorations, hidingEnter_oob doc ranges bad hbad]
  · unfold hideFieldBuild
    cases h : lineAt doc sel.main.lo with
    | none => rfl
    | some cli =>
      have hc := collectHide_none_of_mem doc (docChars doc) cli.number
        (by simp : bad ∈ t1 ++ bad :: t2)
        (hideEnter_none_of_oob doc (docChars doc) cli.number bad hbad)
      simp [hc]

/-- Witness for C4 (amended): concrete one-line document and stale node. -/
theorem claim_C4_amended_witness :
    buildHidingDecorations [['a']] [⟨0, 0⟩]
        ([⟨"EmphasisMark", 0, 1, none⟩] ++ ⟨"HeaderMark", 5, 6, none⟩ :: []) =
      buildHidingDecorations [['a']] [⟨0, 0⟩]
        ([⟨"EmphasisMark", 0, 1, none⟩] ++ []) ∧
    hideFieldBuild [['a']] ⟨[⟨0, 0⟩], 0⟩
        ([⟨"EmphasisMark", 0, 1, none⟩] ++ ⟨"HeaderMark", 5, 6, none⟩ :: []) = none :=
  claim_C4_amended [['a']] [⟨0, 0⟩] ⟨[⟨0, 0⟩], 0⟩
    [⟨"EmphasisMark", 0, 1, none⟩] [] ⟨"HeaderMark", 5, 6, none⟩ (by decide)

/-! ### Claim C5: fenced-code line classification -/

/-- When every requested line number exists, `lineDecosFor` succeeds and
produces exactly one zero-length line decoration per requested line, at
that line's start, with the class chosen by `cls`. -/
theorem lineDecosFor_some {doc : List (List Char)} {cls : Nat → String}
    {idxs : List Nat} (h : ∀ i ∈ idxs, ∃ L, lineNum doc i = some L) :
    ∃ ds, lineDecosFor doc cls idxs = some ds ∧
      ds.length = idxs.length ∧
      (∀ i ∈ idxs, ∃ L, lineNum doc i = some L ∧
        (⟨L.lfrom, L.lfrom, .lineClass (cls i)⟩ : DecoSpec) ∈ ds) ∧
      (∀ d ∈ ds, ∃ i ∈ idxs, ∃ L, lineNum doc i = some L ∧
        d = ⟨L.lfrom, L.lfrom, .lineClass (cls i)⟩) := by
  induction idxs with
  | nil => exact ⟨[], rfl, rfl, by simp, by simp⟩
  | cons i rest ih =>
    obtain ⟨L, hL⟩ := h i (by simp)
    obtain ⟨ds, hds, hlen, hfwd, hbwd⟩ := ih (fun j hj => h j (by simp [hj]))
    refine ⟨⟨L.lfrom, L.lfrom, .lineClass (cls i)⟩ :: ds, ?_, ?_, ?_, ?_⟩
    · unfold lineDecosFor
      rw [hL, hds]
    · simp [hlen]
    · intro j hj
      rcases List.mem_cons.mp hj with hj | hj
      · subst hj
        exact ⟨L, hL, by simp⟩
      · obtain ⟨M, hM, hmem⟩ := hfwd j hj
        exact ⟨M, hM, by simp [hmem]⟩
    · intro d hd
      rcases List.mem_cons.mp hd with hd | hd
      · exact ⟨i, by simp, L, hL, hd⟩
      · obtain ⟨j, hj, M, hM, hdm⟩ := hbwd d hd
        exact ⟨j, by simp [hj], M, hM, hdm⟩

/-- C5: for a `FencedCode` node the rebuild emits, for any cursor line
(active or not), one line-class decoration at the start of every line the
node spans, classified first/middle/last by `fencedCls`; and when the
fence starts and ends on the same line the emitted list is exactly one
decoration carrying the `single` variant. -/
theorem claim_C5_fenced_line_classes (doc : List (List Char))
    (text : List Char) (cursorLine : Nat) (n : SyntaxNode) (ls le : LineInfo)
    (hname : n.name = "FencedCode")
    (hs : lineAt doc n.nfrom = some ls)
    (he : lineAt doc n.nto = some le)
    (hft : n.nfrom ≤ n.nto) :
    ∃ decos, hideEnter doc text cursorLine n = some decos ∧
      decos.length = le.number + 1 - ls.number ∧
      (∀ i, ls.number ≤ i → i ≤ le.number →
        ∃ L, lineNum doc i = some L ∧
          (⟨L.lfrom, L.lfrom,
            .lineClass (fencedCls ls.number le.number i)⟩ : DecoSpec) ∈ decos) ∧
      (∀ d ∈ decos, ∃ i, ls.number ≤ i ∧ i ≤ le.number ∧
        d.value = .lineClass (fencedCls ls.number le.number i)) ∧
      (ls.number = le.number →
        decos = [⟨ls.lfrom, ls.lfrom,
          .lineClass "cm-codeblock-line cm-codeblock-single"⟩]) := by
  have hmono : ls.number ≤ le.number := lineAt_number_mono hs he hft
  have hnumle : lineNum doc le.number = some le := lineAtAux_to_lineNumAux he
  have hnumls : lineNum doc ls.number = some ls := lineAtAux_to_lineNumAux hs
  have hone : 1 ≤ ls.number := (lineAtAux_num_lfrom hs).1
  have hex : ∀ i ∈ List.range' ls.number (le.number + 1 - ls.number),
      ∃ L, lineNum doc i = some L := by
    intro i hi
    obtain ⟨j, hj, rfl⟩ := List.mem_range'.mp hi
    exact lineNumAux_exists hnumle _ (by omega) (by omega)
  obtain ⟨ds, hds, hlen, hfwd, hbwd⟩ :=
    @lineDecosFor_some doc (fencedCls ls.number le.number) _ hex
  have hA : strContains "FencedCode" "ATXHeading" = false := by decide
  have hB : strContains "FencedCode" "SetextHeading" = false := by decide
  have henter : hideEnter doc text cursorLine n = some ds := by
    simp [hideEnter, fencedEnter, hideChain, hs, he, hds, hname, hA, hB]
  refine ⟨ds, henter, ?_, ?_, ?_, ?_⟩
  · rw [hlen, List.length_range']
  · intro i hlo hhi
    exact hfwd i (List.mem_range'.mpr ⟨i - ls.number, by omega, by omega⟩)
  · intro d hd
    obtain ⟨i, hi, L, hL, hdm⟩ := hbwd d hd
    obtain ⟨j, hj, hij⟩ := List.mem_range'.mp hi
    exact ⟨i, by omega, by omega, by rw [hdm]⟩
  · intro heq
    have hr : List.range' ls.number (le.number + 1 - ls.number) = [ls.number] := by
      rw [← heq]
      simp
    rw [hr] at hds
    have hcomp : lineDecosFor doc (fencedCls ls.number le.number) [ls.number] =
        some [⟨ls.lfrom, ls.lfrom,
          .lineClass (fencedCls ls.number le.number ls.number)⟩] := by
      unfold lineDecosFor
      rw [hnumls]
      rfl
    rw [hcomp] at hds
    cases hds
    have hcls : fencedCls ls.number le.number ls.number =
        "cm-codeblock-line cm-codeblock-single" := by
      unfold fencedCls
      rw [if_pos heq]
    rw [hcls]

/-- Witness for C5: single-line fenced block document. -/
theorem claim_C5_fenced_line_classes_witness :
    ∃ decos, hideEnter [("```js x ```".toList)]
        (docChars [("```js x ```".toList)]) 1
        ⟨"FencedCode", 0, 11, none⟩ = some decos ∧
      decos.length = 1 + 1 - 1 ∧
      (∀ i, 1 ≤ i → i ≤ 1 →
        ∃ L, lineNum [("```js x ```".toList)] i = some L ∧
          (⟨L.lfrom, L.lfrom, .lineClass (fencedCls 1 1 i)⟩ : DecoSpec) ∈ decos) ∧
      (∀ d ∈ decos, ∃ i, 1 ≤ i ∧ i ≤ 1 ∧
        d.value = .lineClass (fencedCls 1 1 i)) ∧
      (1 = 1 → decos = [⟨0, 0,
        .lineClass "cm-codeblock-line cm-codeblock-single"⟩]) :=
  claim_C5_fenced_line_classes [("```js x ```".toList)]
    (docChars [("```js x ```".toList)]) 1 ⟨"FencedCode", 0, 11, none⟩
    ⟨1, 0, "```js x ```".toList⟩ ⟨1, 0, "```js x ```".toList⟩
    rfl (by decide) (by decide) (by decide)

/-! ### Claim C3: the active-line set -/

/-- C3 counterexample: two carets (multi-cursor) at offsets 0 (line 1) and
2 (line 2), main range first.  The spec's union over all ranges makes
line 2 active, but the computed active-line set is `[1]` only: non-main
ranges are ignored. -/
theorem claim_C3_counterexample :
    computeActiveLines [['a'], ['b']] ⟨[⟨0, 0⟩, ⟨2, 2⟩], 0⟩ = some [1] ∧
    specLineActive [['a'], ['b']] [⟨0, 0⟩, ⟨2, 2⟩] 2 = true ∧
    (2 : Nat) ∉ [1] := by
  refine ⟨by decide, by decide, by decide⟩

/-- C3 (amended): the active-line set is computed from the main selection
range only.  It equals the set of lines overlapped by
`[min(main.anchor, main.head), max(main.anchor, main.head)]`, inclusive of
boundary lines (for a caret, exactly the caret's line); additional
(non-main) ranges are ignored. -/
theorem claim_C3_amended (doc : List (List Char)) (sel : Selection)
    (lns : List Nat) (h : computeActiveLines doc sel = some lns) :
    ∀ n, n ∈ lns ↔ specLineActive doc [sel.main] n = true := by
  intro n
  simp only [computeActiveLines] at h
  split at h
  · -- caret
    rename_i hempty
    have heq : sel.main.anchor = sel.main.head := by
      simpa [SelRange.empty] using hempty
    cases hl : lineAt doc sel.main.head with
    | none =>
      rw [hl] at h
      exact absurd h (by simp)
    | some l =>
      rw [hl] at h
      injection h with h2
      subst h2
      constructor
      · intro hn
        have hn2 : n = l.number := by simpa using hn
        subst hn2
        have hnum2 : lineNum doc l.number = some l :=
          lineAtAux_to_lineNumAux hl
        have hb := lineAtAux_bounds (Nat.zero_le _) hl
        simp only [specLineActive, List.any_cons, List.any_nil,
          Bool.or_false, hnum2, decide_eq_true_eq, heq, Nat.max_self,
          Nat.min_self]
        omega
      · intro hspec
        simp only [specLineActive, List.any_cons, List.any_nil,
          Bool.or_false] at hspec
        cases hL : lineNum doc n with
        | none =>
          rw [hL] at hspec
          simp at hspec
        | some L =>
          rw [hL] at hspec
          simp only [decide_eq_true_eq, heq, Nat.max_self, Nat.min_self]
            at hspec
          have hat : lineAtAux doc sel.main.head 0 1 = some L :=
            lineNumAux_to_lineAtAux hL hspec.1 hspec.2
          have hl2 : lineAtAux doc sel.main.head 0 1 = some l := hl
          rw [hl2] at hat
          injection hat with hat2
          have hLn := (lineNumAux_spec hL).1
          rw [hat2]
          simp [hLn]
  · -- range selection
    rename_i hnempty
    cases hs : lineAt doc sel.main.lo with
    | none =>
      rw [hs] at h
      exact absurd h (by simp)
    | some s2 =>
      cases he : lineAt doc sel.main.hi with
      | none =>
        rw [hs, he] at h
        exact absurd h (by simp)
      | some e2 =>
        rw [hs, he] at h
        injection h with h2
        subst h2
        have hlohi : sel.main.lo ≤ sel.main.hi := min_le_max
        have hmono : s2.number ≤ e2.number := lineAt_number_mono hs he hlohi
        have hnums := lineAtAux_to_lineNumAux hs
        have hnume := lineAtAux_to_lineNumAux he
        have hbs := lineAtAux_bounds (Nat.zero_le _) hs
        have hbe := lineAtAux_bounds (Nat.zero_le _) he
        have hone : 1 ≤ s2.number := (lineAtAux_num_lfrom hs).1
        simp only [SelRange.lo, SelRange.hi] at hbs hbe
        constructor
        · intro hn
          obtain ⟨j, hj, rfl⟩ := List.mem_range'.mp hn
          obtain ⟨L, hL0⟩ := lineNumAux_exists hnume (s2.number + 1 * j)
            (by omega) (by omega)
          have hL : lineNum doc (s2.number + 1 * j) = some L := hL0
          simp only [specLineActive, List.any_cons, List.any_nil,
            Bool.or_false, hL, decide_eq_true_eq]
          have hup : L.lfrom ≤ max sel.main.anchor sel.main.head := by
            by_cases hcase : s2.number + 1 * j = e2.number
            · rw [hcase, hnume] at hL0
              injection hL0 with hL2
              rw [← hL2]
              omega
            · have hsep := lineNumAux_sep hL0 hnume (by omega)
              omega
          have hdown : min sel.main.anchor sel.main.head ≤
              L.lfrom + L.text.length := by
            by_cases hcase : s2.number + 1 * j = s2.number
            · rw [hcase, hnums] at hL0
              injection hL0 with hL2
              rw [← hL2]
              omega
            · have hsep := lineNumAux_sep hnums hL0 (by omega)
              omega
          exact ⟨hup, hdown⟩
        · intro hspec
          simp only [specLineActive, List.any_cons, List.any_nil,
            Bool.or_false] at hspec
          cases hL : lineNum doc n with
          | none =>
            rw [hL] at hspec
            simp at hspec
          | some L =>
            rw [hL] at hspec
            simp only [decide_eq_true_eq] at hspec
            have h1 : s2.number ≤ n := by
              by_contra hc
              push_neg at hc
              have hsep := lineNumAux_sep hL hnums hc
              omega
            have h2 : n ≤ e2.number := by
              by_contra hc
              push_neg at hc
              have hsep := lineNumAux_sep hnume hL hc
              omega
            exact List.mem_range'.mpr
              (Exists.intro (n - s2.number) (And.intro (by omega) (by omega)))

/-- Witness for C3 (amended): a range selection from offset 0 to 3 over a
two-line document activates both lines; instantiated at line 2. -/
theorem claim_C3_amended_witness :
    (2 ∈ [1, 2] ↔
      specLineActive [['a'], ['b']] [(⟨[⟨0, 3⟩], 0⟩ : Selection).main] 2 = true) :=
  claim_C3_amended [['a'], ['b']] ⟨[⟨0, 3⟩], 0⟩ [1, 2] (by decide) 2

/-! ### Claim C1: sortedness and non-overlap of the committed set -/

/-- Everything `lineDecosFor` produces is a line-class decoration. -/
theorem lineDecosFor_all_lineClass {doc : List (List Char)}
    {cls : Nat → String} {idxs : List Nat} {ds : List DecoSpec}
    (h : lineDecosFor doc cls idxs = some ds) :
    ∀ d ∈ ds, ∃ c, d.value = Deco.lineClass c := by
  induction idxs generalizing ds with
  | nil =>
    cases h
    simp
  | cons i rest ih =>
    unfold lineDecosFor at h
    cases hL : lineNum doc i with
    | none =>
      rw [hL] at h
      cases h
    | some L =>
      rw [hL] at h
      cases hds : lineDecosFor doc cls rest with
      | none =>
        rw [hds] at h
        cases h
      | some ds2 =>
        rw [hds] at h
        cases h
        intro d hd
        rcases List.mem_cons.mp hd with hd | hd
        · exact ⟨cls i, by rw [hd]⟩
        · exact ih hds d hd

/-- Shape of the `hideSyntaxField` chain output for one node: empty, a
single inline decoration spanning exactly the node's range (only for the
inline-emitting node kinds), or line-class decorations only. -/
theorem hideChain_shape {doc : List (List Char)} {text : List Char}
    {cl nl : Nat} {n : SyntaxNode} {l : List DecoSpec}
    (h : hideChain doc text cl nl n = some l) :
    l = [] ∨
    (inlineEmitName n.name = true ∧
      ∃ v, l = [⟨n.nfrom, n.nto, v⟩] ∧ isMutexInline v = true) ∨
    (∀ d ∈ l, ∃ c, d.value = Deco.lineClass c) := by
  unfold hideChain at h
  simp only [] at h
  split at h
  · -- CodeMark
    rename_i hname
    split at h
    · split at h
      · cases h
      · split at h
        · split at h
          · cases h
            exact Or.inr (Or.inl ⟨by simp [inlineEmitName, hname], _, rfl, rfl⟩)
          · cases h
            exact Or.inr (Or.inl ⟨by simp [inlineEmitName, hname], _, rfl, rfl⟩)
        · cases h
          exact Or.inl rfl
    · cases h
      exact Or.inl rfl
  · split at h
    · -- TaskMarker
      rename_i hname0 hname
      split at h
      · cases h
        exact Or.inr (Or.inl ⟨by simp [inlineEmitName, hname], _, rfl, rfl⟩)
      · cases h
        exact Or.inl rfl
    · split at h
      · -- HorizontalRule
        rename_i hname0 hname1 hname
        split at h
        · cases h
          exact Or.inr (Or.inl ⟨by simp [inlineEmitName, hname], _, rfl, rfl⟩)
        · cases h
          exact Or.inl rfl
      · split at h
        · -- ListMark
          rename_i hname0 hname1 hname2 hname
          split at h
          · split at h
            · cases h
              exact Or.inl rfl
            · split at h
              · cases h
                exact Or.inr (Or.inl ⟨by simp [inlineEmitName, hname], _, rfl, rfl⟩)
              · cases h
                exact Or.inr (Or.inl ⟨by simp [inlineEmitName, hname], _, rfl, rfl⟩)
          · cases h
            exact Or.inl rfl
        · split at h
          · -- HeaderMark
            rename_i hname0 hname1 hname2 hname3 hname
            split at h
            · cases h
              exact Or.inr (Or.inl ⟨by simp [inlineEmitName, hname], _, rfl, rfl⟩)
            · cases h
              exact Or.inl rfl
          · split at h
            · -- ATX / Setext heading
              split at h
              · split at h
                · split at h
                  · exact Or.inr (Or.inr (lineDecosFor_all_lineClass h))
                  · cases h
                · cases h
                  exact Or.inl rfl
              · cases h
                exact Or.inl rfl
            · split at h
              · -- QuoteMark / EmphasisMark / StrongEmphasisMark / LinkMark
                rename_i hname0 hname1 hname2 hname3 hname4 hname5 hname
                split at h
                · cases h
                  refine Or.inr (Or.inl ⟨?_, _, rfl, rfl⟩)
                  simp only [Bool.or_eq_true, decide_eq_true_eq] at hname
                  rcases hname with ((hn | hn) | hn) | hn <;>
                    simp [inlineEmitName, hn]
                · cases h
                  exact Or.inl rfl
              · cases h
                exact Or.inl rfl

/-- Everything the `FencedCode` branch produces is a line-class
decoration. -/
theorem fencedEnter_all_lineClass {doc : List (List Char)} {n : SyntaxNode}
    {ds : List DecoSpec} (h : fencedEnter doc n = some ds) :
    ∀ d ∈ ds, ∃ c, d.value = Deco.lineClass c := by
  unfold fencedEnter at h
  split at h
  · exact lineDecosFor_all_lineClass h
  · cases h

/-- Decomposition of one `enter` run: the fenced part and the chain part,
concatenated. -/
theorem hideEnter_parts {doc : List (List Char)} {text : List Char}
    {cl : Nat} {n : SyntaxNode} {l : List DecoSpec}
    (h : hideEnter doc text cl n = some l) :
    ∃ fd cd nli,
      (if n.name = "FencedCode" then fencedEnter doc n else some []) = some fd ∧
      lineAt doc n.nfrom = some nli ∧
      hideChain doc text cl nli.number n = some cd ∧
      l = fd ++ cd := by
  unfold hideEnter at h
  cases hli : lineAt doc n.nfrom with
  | none =>
    rw [hli] at h
    cases h
  | some nli =>
    simp only [hli] at h
    cases hfd : (if n.name = "FencedCode" then fencedEnter doc n else some []) with
    | none =>
      simp only [hfd] at h
      cases h
    | some fd =>
      simp only [hfd] at h
      cases hcd : hideChain doc text cl nli.number n with
      | none =>
        simp only [hcd] at h
        cases h
      | some cd =>
        simp only [hcd, Option.some_inj] at h
        subst h
        exact ⟨fd, cd, nli, rfl, rfl, hcd, rfl⟩

/-- Every mutually-exclusive inline decoration a node's `enter` pushes
spans exactly that node's range, and only inline-emitting node kinds push
one. -/
theorem hideEnter_mutex_range {doc : List (List Char)} {text : List Char}
    {cl : Nat} {n : SyntaxNode} {l : List DecoSpec}
    (h : hideEnter doc text cl n = some l) :
    ∀ d ∈ l, isMutexInline d.value = true →
      d.dfrom = n.nfrom ∧ d.dto = n.nto ∧ inlineEmitName n.name = true := by
  obtain ⟨fd, cd, nli, hfd, hli, hcd, hl⟩ := hideEnter_parts h
  subst hl
  intro d hd hmx
  rcases List.mem_append.mp hd with hd | hd
  · exfalso
    have hlc : ∃ c, d.value = Deco.lineClass c := by
      split at hfd
      · exact fencedEnter_all_lineClass hfd d hd
      · cases hfd
        cases hd
    obtain ⟨c, hc⟩ := hlc
    rw [hc] at hmx
    cases hmx
  · rcases hideChain_shape hcd with hsh | ⟨hname, v, hcd2, hv⟩ | hsh
    · subst hsh
      cases hd
    · subst hcd2
      have hd2 : d = ⟨n.nfrom, n.nto, v⟩ := by simpa using hd
      subst hd2
      exact ⟨rfl, rfl, hname⟩
    · exfalso
      obtain ⟨c, hc⟩ := hsh d hd
      rw [hc] at hmx
      cases hmx

/-- Helper: a list none of whose elements satisfies `p` is pairwise free
of `p`-pairs. -/
theorem pairwise_not_and_left {α : Type} {p : α → Prop} {xs : List α}
    (h : ∀ d ∈ xs, ¬ p d) :
    xs.Pairwise (fun a b => ¬(p a ∧ p b)) := by
  induction xs with
  | nil => exact List.Pairwise.nil
  | cons x r ih =>
    refine List.Pairwise.cons ?_ (ih fun d hd => h d (List.mem_cons_of_mem x hd))
    intro b _ hc
    exact h x (by simp) hc.1

/-- A single node's `enter` never pushes two mutually-exclusive inline
decorations. -/
theorem hideEnter_mutex_pairwise {doc : List (List Char)} {text : List Char}
    {cl : Nat} {n : SyntaxNode} {l : List DecoSpec}
    (h : hideEnter doc text cl n = some l) :
    l.Pairwise (fun d1 d2 =>
      ¬(isMutexInline d1.value = true ∧ isMutexInline d2.value = true)) := by
  obtain ⟨fd, cd, nli, hfd, hli, hcd, hl⟩ := hideEnter_parts h
  subst hl
  have hfdlc : ∀ d ∈ fd, ¬ isMutexInline d.value = true := by
    intro d hd hmx
    have hlc : ∃ c, d.value = Deco.lineClass c := by
      split at hfd
      · exact fencedEnter_all_lineClass hfd d hd
      · cases hfd
        cases hd
    obtain ⟨c, hc⟩ := hlc
    rw [hc] at hmx
    cases hmx
  rw [List.pairwise_append]
  refine ⟨pairwise_not_and_left hfdlc, ?_, ?_⟩
  · rcases hideChain_shape hcd with hsh | ⟨hname, v, hcd2, hv⟩ | hsh
    · subst hsh
      exact List.Pairwise.nil
    · subst hcd2
      simp
    · refine pairwise_not_and_left ?_
      intro d hd hmx
      obtain ⟨c, hc⟩ := hsh d hd
      rw [hc] at hmx
      cases hmx
  · intro d1 hd1 d2 _ hc
    exact hfdlc d1 hd1 hc.1

/-- Each collected decoration comes from some tree node's `enter`. -/
theorem collectHide_mem {doc : List (List Char)} {text : List Char}
    {cl : Nat} {tree : List SyntaxNode} {decos : List DecoSpec}
    (h : collectHide doc text cl tree = some decos) :
    ∀ d ∈ decos, ∃ n ∈ tree, ∃ l,
      hideEnter doc text cl n = some l ∧ d ∈ l := by
  induction tree generalizing decos with
  | nil =>
    cases h
    simp
  | cons m rest ih =>
    unfold collectHide at h
    cases hm : hideEnter doc text cl m with
    | none =>
      rw [hm] at h
      cases h
    | some ds =>
      rw [hm] at h
      cases hr : collectHide doc text cl rest with
      | none =>
        rw [hr] at h
        cases h
      | some rs =>
        rw [hr] at h
        cases h
        intro d hd
        rcases List.mem_append.mp hd with hd | hd
        · exact ⟨m, by simp, ds, hm, hd⟩
        · obtain ⟨n, hn, l, hl, hdl⟩ := ih hr d hd
          exact ⟨n, by simp [hn], l, hl, hdl⟩

/-- Pairwise transfer from per-node and cross-node facts to the collected
decoration list. -/
theorem collectHide_pairwise {R : DecoSpec → DecoSpec → Prop}
    {doc : List (List Char)} {text : List Char} {cl : Nat}
    {tree : List SyntaxNode} {decos : List DecoSpec}
    (h : collectHide doc text cl tree = some decos)
    (hin : ∀ n ∈ tree, ∀ l, hideEnter doc text cl n = some l → l.Pairwise R)
    (hcross : tree.Pairwise (fun n1 n2 => ∀ l1 l2,
      hideEnter doc text cl n1 = some l1 →
      hideEnter doc text cl n2 = some l2 →
      ∀ d1 ∈ l1, ∀ d2 ∈ l2, R d1 d2)) :
    decos.Pairwise R := by
  induction tree generalizing decos with
  | nil =>
    cases h
    exact List.Pairwise.nil
  | cons m rest ih =>
    unfold collectHide at h
    cases hm : hideEnter doc text cl m with
    | none =>
      rw [hm] at h
      cases h
    | some ds =>
      rw [hm] at h
      cases hr : collectHide doc text cl rest with
      | none =>
        rw [hr] at h
        cases h
      | some rs =>
        rw [hr] at h
        cases h
        obtain ⟨hhead, htail⟩ := List.pairwise_cons.mp hcross
        rw [List.pairwise_append]
        refine ⟨hin m (by simp) ds hm,
          ih hr (fun n hn l hl => hin n (by simp [hn]) l hl) htail, ?_⟩
        intro d1 hd1 d2 hd2
        obtain ⟨n2, hn2, l2, hl2, hdl2⟩ := collectHide_mem hr d2 hd2
        exact hhead n2 hn2 ds l2 hm hl2 d1 hd1 d2 hdl2

/-- C1: for every document, selection and tree whose inline-emitting
marker nodes are pairwise non-overlapping (the tree invariant for these
leaf marker kinds), the decoration sequence committed by the rebuild is
sorted by `(from, to)` ascending, and no two mutually-exclusive inline
decorations (hide / replace-with-widget / mark) in it overlap. -/
theorem claim_C1_sorted_nonoverlapping (doc : List (List Char))
    (sel : Selection) (tree : List SyntaxNode) (res : List DecoSpec)
    (hdisj : tree.Pairwise (fun a b =>
      inlineEmitName a.name = true → inlineEmitName b.name = true →
      a.nto ≤ b.nfrom ∨ b.nto ≤ a.nfrom))
    (hres : hideFieldBuild doc sel tree = some res) :
    res.Pairwise decoLe ∧
    res.Pairwise (fun d1 d2 =>
      isMutexInline d1.value = true → isMutexInline d2.value = true →
      ¬ decoOverlap d1 d2) := by
  unfold hideFieldBuild at hres
  cases hcl : lineAt doc sel.main.lo with
  | none =>
    rw [hcl] at hres
    exact absurd hres (by simp)
  | some cli =>
    simp only [hcl] at hres
    cases hcol : collectHide doc (docChars doc) cli.number tree with
    | none =>
      simp only [hcol] at hres
      cases hres
    | some decos =>
      simp only [hcol, Option.some_inj] at hres
      subst hres
      constructor
      · exact List.sorted_insertionSort decoLe decos
      · have hperm : List.Perm (sortDecos decos) decos :=
          List.perm_insertionSort decoLe decos
        have hsym : ∀ {d1 d2 : DecoSpec},
            (isMutexInline d1.value = true → isMutexInline d2.value = true →
              ¬ decoOverlap d1 d2) →
            (isMutexInline d2.value = true → isMutexInline d1.value = true →
              ¬ decoOverlap d2 d1) := by
          intro d1 d2 h12 hm2 hm1 hov
          exact h12 hm1 hm2 ⟨hov.2, hov.1⟩
        refine (hperm.pairwise_iff hsym).mpr ?_
        apply collectHide_pairwise hcol
        · intro n hn l hl
          refine (hideEnter_mutex_pairwise hl).imp ?_
          intro a b hab h1 h2
          exact (hab ⟨h1, h2⟩).elim
        · refine hdisj.imp ?_
          intro n1 n2 hd12 l1 l2 hl1 hl2 d1 hd1 d2 hd2 hm1 hm2 hov
          obtain ⟨hf1, ht1, hn1⟩ := hideEnter_mutex_range hl1 d1 hd1 hm1
          obtain ⟨hf2, ht2, hn2⟩ := hideEnter_mutex_range hl2 d2 hd2 hm2
          have hdisj2 := hd12 hn1 hn2
          unfold decoOverlap at hov
          omega

/-- Witness for C1: the spec's example document `# Title\n\nSome **bold**
text.` with the caret at offset 0 and the marker nodes of its tree. -/
theorem claim_C1_sorted_nonoverlapping_witness :
    List.Pairwise decoLe
      [⟨0, 0, .lineClass "cm-line-h1"⟩,
       ⟨14, 16, .replaceClass "cm-syntax-marker"⟩,
       ⟨20, 22, .replaceClass "cm-syntax-marker"⟩] ∧
    List.Pairwise (fun d1 d2 =>
      isMutexInline d1.value = true → isMutexInline d2.value = true →
      ¬ decoOverlap d1 d2)
      [⟨0, 0, .lineClass "cm-line-h1"⟩,
       ⟨14, 16, .replaceClass "cm-syntax-marker"⟩,
       ⟨20, 22, .replaceClass "cm-syntax-marker"⟩] :=
  claim_C1_sorted_nonoverlapping
    [("# Title".toList), [], ("Some **bold** text.".toList)]
    ⟨[⟨0, 0⟩], 0⟩
    [⟨"HeaderMark", 0, 1, none⟩,
     ⟨"ATXHeading1", 0, 7, none⟩,
     ⟨"EmphasisMark", 14, 16, some "StrongEmphasis"⟩,
     ⟨"EmphasisMark", 20, 22, some "StrongEmphasis"⟩]
    [⟨0, 0, .lineClass "cm-line-h1"⟩,
     ⟨14, 16, .replaceClass "cm-syntax-marker"⟩,
     ⟨20, 22, .replaceClass "cm-syntax-marker"⟩]
    (by decide) (by decide)

/-! ### Claim C10: wrapSelection toggling -/

/-- Slicing an append at the first part's length takes from the second
part. -/
theorem listSlice_append2 {l1 l2 : List Char} {a b : Nat}
    (ha : l1.length = a) :
    listSlice (l1 ++ l2) a b = l2.take (b - a) := by
  subst ha
  simp [listSlice, List.drop_left]

/-- Length of a slice inside the list. -/
theorem listSlice_length {l : List Char} {a b : Nat} (hb : b ≤ l.length) :
    (listSlice l a b).length = b - a := by
  simp only [listSlice, List.length_take, List.length_drop]
  omega

/-- The branch taken by `wrapSelection` when the surrounding text does not
already equal the markers: insert them and select the inner text. -/
theorem wrapSelection_eq_wrap (pre suf : List Char) (st : EditorState)
    (hnw : ¬ (listSlice st.doc (min st.anchor st.head - pre.length)
        (min st.anchor st.head) = pre ∧
      listSlice st.doc (max st.anchor st.head)
        (min st.doc.length (max st.anchor st.head + suf.length)) = suf)) :
    wrapSelection pre suf st =
      ⟨st.doc.take (min st.anchor st.head) ++ pre ++
          listSlice st.doc (min st.anchor st.head) (max st.anchor st.head) ++
          suf ++ st.doc.drop (max st.anchor st.head),
        min st.anchor st.head + pre.length,
        min st.anchor st.head + pre.length +
          (listSlice st.doc (min st.anchor st.head)
            (max st.anchor st.head)).length⟩ := by
  unfold wrapSelection
  simp only []
  rw [if_neg hnw]

/-- The branch taken by `wrapSelection` when the surrounding text equals
the markers: remove them and select the inner text. -/
theorem wrapSelection_eq_unwrap (pre suf : List Char) (st : EditorState)
    (hw : listSlice st.doc (min st.anchor st.head - pre.length)
        (min st.anchor st.head) = pre ∧
      listSlice st.doc (max st.anchor st.head)
        (min st.doc.length (max st.anchor st.head + suf.length)) = suf) :
    wrapSelection pre suf st =
      ⟨st.doc.take (min st.anchor st.head - pre.length) ++
          listSlice st.doc (min st.anchor st.head) (max st.anchor st.head) ++
          st.doc.drop (min st.doc.length (max st.anchor st.head + suf.length)),
        min st.anchor st.head - pre.length,
        min st.anchor st.head - pre.length +
          (listSlice st.doc (min st.anchor st.head)
            (max st.anchor st.head)).length⟩ := by
  unfold wrapSelection
  simp only []
  rw [if_pos hw]

/-- C10: one `wrapSelection` call on a not-already-wrapped selection
inserts the markers around the selected text and selects the inner text;
a second call removes exactly those markers, restoring the original
document with the original range selected.  (`f` and `t` are the main
selection's `from`/`to`, with `from ≤ to ≤ doc.length` as CodeMirror
guarantees; `toggleBold` is `wrapSelection` with `**` for both markers.) -/
theorem claim_C10_wrap_involution (pre suf d : List Char) (f t : Nat)
    (hft : f ≤ t) (hvalid : t ≤ d.length)
    (hnw : ¬ (listSlice d (f - pre.length) f = pre ∧
      listSlice d t (min d.length (t + suf.length)) = suf)) :
    wrapSelection pre suf ⟨d, f, t⟩ =
      ⟨d.take f ++ pre ++ listSlice d f t ++ suf ++ d.drop t,
        f + pre.length, f + pre.length + (t - f)⟩ ∧
    wrapSelection pre suf (wrapSelection pre suf ⟨d, f, t⟩) = ⟨d, f, t⟩ := by
  have hmin : min f t = f := Nat.min_eq_left hft
  have hmax : max f t = t := Nat.max_eq_right hft
  have hbody : (listSlice d f t).length = t - f := listSlice_length hvalid
  have h1 := wrapSelection_eq_wrap pre suf ⟨d, f, t⟩
    (by simp only [hmin, hmax]; exact hnw)
  simp only [hmin, hmax, hbody] at h1
  refine ⟨h1, ?_⟩
  rw [h1]
  set D := d.take f ++ pre ++ listSlice d f t ++ suf ++ d.drop t with hD
  have hA : (d.take f).length = f := by
    rw [List.length_take]
    omega
  have hAp : (d.take f ++ pre).length = f + pre.length := by
    rw [List.length_append, hA]
  have hApb : ((d.take f ++ pre) ++ listSlice d f t).length =
      f + pre.length + (t - f) := by
    rw [List.length_append, hAp, hbody]
  have g1 : D = d.take f ++ (pre ++ (listSlice d f t ++ (suf ++ d.drop t))) := by
    rw [hD]
    simp [List.append_assoc]
  have g2 : D = (d.take f ++ pre) ++ (listSlice d f t ++ (suf ++ d.drop t)) := by
    rw [hD]
    simp [List.append_assoc]
  have g3 : D = ((d.take f ++ pre) ++ listSlice d f t) ++ (suf ++ d.drop t) := by
    rw [hD]
    simp [List.append_assoc]
  have g4 : D = (((d.take f ++ pre) ++ listSlice d f t) ++ suf) ++ d.drop t := by
    rw [hD]
  have hDlen : D.length = d.length + pre.length + suf.length := by
    rw [hD]
    simp only [List.length_append, hA, hbody, List.length_take,
      List.length_drop]
    omega
  have hmin1 : min (f + pre.length) (f + pre.length + (t - f)) =
      f + pre.length := Nat.min_eq_left (Nat.le_add_right _ _)
  have hmax1 : max (f + pre.length) (f + pre.length + (t - f)) =
      f + pre.length + (t - f) := Nat.max_eq_right (Nat.le_add_right _ _)
  have c1 : listSlice D f (f + pre.length) = pre := by
    rw [g1, listSlice_append2 hA,
      show f + pre.length - f = pre.length from by omega, List.take_left]
  have hsel : listSlice D (f + pre.length) (f + pre.length + (t - f)) =
      listSlice d f t := by
    rw [g2, listSlice_append2 hAp,
      show f + pre.length + (t - f) - (f + pre.length) = t - f from by omega]
    exact List.take_left' hbody
  have c2 : listSlice D (f + pre.length + (t - f))
      (f + pre.length + (t - f) + suf.length) = suf := by
    rw [g3, listSlice_append2 hApb,
      show f + pre.length + (t - f) + suf.length -
        (f + pre.length + (t - f)) = suf.length from by omega, List.take_left]
  have hminq : min D.length (f + pre.length + (t - f) + suf.length) =
      f + pre.length + (t - f) + suf.length := by
    rw [hDlen]
    omega
  have hw1 : listSlice D
        (min (f + pre.length) (f + pre.length + (t - f)) - pre.length)
        (min (f + pre.length) (f + pre.length + (t - f))) = pre ∧
      listSlice D (max (f + pre.length) (f + pre.length + (t - f)))
        (min D.length
          (max (f + pre.length) (f + pre.length + (t - f)) + suf.length)) =
        suf := by
    rw [hmin1, hmax1, hminq,
      show f + pre.length - pre.length = f from by omega]
    exact ⟨c1, c2⟩
  have h2 := wrapSelection_eq_unwrap pre suf
    ⟨D, f + pre.length, f + pre.length + (t - f)⟩ hw1
  simp only [hmin1, hmax1, hminq,
    show f + pre.length - pre.length = f from by omega, hsel, hbody] at h2
  rw [h2]
  have htk : D.take f = d.take f := by
    rw [g1]
    exact List.take_left' hA
  have hdr : D.drop (f + pre.length + (t - f) + suf.length) = d.drop t := by
    rw [g4]
    refine List.drop_left' ?_
    rw [List.length_append, hApb]
  have hrestore : d.take f ++ listSlice d f t ++ d.drop t = d := by
    have hdd : (d.drop f).drop (t - f) = d.drop t := by
      rw [List.drop_drop]
      congr 1
      omega
    calc d.take f ++ listSlice d f t ++ d.drop t
        = d.take f ++ ((d.drop f).take (t - f) ++ (d.drop f).drop (t - f)) := by
          rw [hdd]
          simp [listSlice, List.append_assoc]
      _ = d.take f ++ d.drop f := by rw [List.take_append_drop]
      _ = d := List.take_append_drop f d
  rw [htk, hdr, hrestore, show f + (t - f) = t from by omega]

/-- Witness for C10: toggling `**` (bold) around the fully selected
document `ab` and toggling it again. -/
theorem claim_C10_wrap_involution_witness :
    wrapSelection "**".toList "**".toList ⟨"ab".toList, 0, 2⟩ =
      ⟨"ab".toList.take 0 ++ "**".toList ++ listSlice "ab".toList 0 2 ++
          "**".toList ++ "ab".toList.drop 2,
        0 + "**".toList.length, 0 + "**".toList.length + (2 - 0)⟩ ∧
    wrapSelection "**".toList "**".toList
        (wrapSelection "**".toList "**".toList ⟨"ab".toList, 0, 2⟩) =
      ⟨"ab".toList, 0, 2⟩ :=
  claim_C10_wrap_involution "**".toList "**".toList "ab".toList 0 2
    (by decide) (by decide) (by decide)
